import Mathlib

/-!
Shallow embedding of the shared-timer-manager repository.

Worker side (src/dist/shared-timer-worker.js): a task registry
(`tasks : Map<string, {timerId, intervalTime, canRepeat}>`), a set of
connected ports, and interval timers armed by `setInterval`.  We model the
registry as an association list with JS `Map` get/set/delete semantics, the
port set as a duplicate-free list of port ids, and the armed timers as a
list of `Timer` records (id, plus the `taskName`/`canRepeat` values captured
by the `setInterval` closure).  `clearInterval` removes a timer from the
live list; a timer can fire only while it is in the live list.

Proxy side (src/dist/timer-manager.esm.js): a callback map and a connected
flag; method calls return the new state, the list of messages posted to the
worker port, and the error thrown (if any).  JS runtime values that matter
to validation (`typeof callback !== 'function'`,
`typeof intervalTime !== 'number' || intervalTime <= 0`) are modelled by a
small JS value universe `JSVal`.
-/

namespace STM

/-- JS `Map.prototype.get`: value at the first (unique) matching key. -/
def mapGet {α : Type} (m : List (String × α)) (k : String) : Option α :=
  match m with
  | [] => none
  | (k', v) :: rest => if k' = k then some v else mapGet rest k

/-- JS `Map.prototype.set`: overwrite the entry in place, else append. -/
def mapSet {α : Type} (m : List (String × α)) (k : String) (v : α) :
    List (String × α) :=
  match m with
  | [] => [(k, v)]
  | (k', v') :: rest =>
      if k' = k then (k, v) :: rest else (k', v') :: mapSet rest k v

/-- JS `Map.prototype.delete`: remove the (unique) entry with the key. -/
def mapDelete {α : Type} (m : List (String × α)) (k : String) :
    List (String × α) :=
  match m with
  | [] => []
  | (k', v') :: rest =>
      if k' = k then rest else (k', v') :: mapDelete rest k

/-- Registry entry: `tasks.set(taskName, { timerId, intervalTime, canRepeat })`. -/
structure Task where
  timerId : Nat
  intervalTime : Int
  canRepeat : Bool
deriving DecidableEq, Repr

/-- An armed `setInterval` timer: its handle and the `taskName` / `canRepeat`
values captured by the interval closure in `addTask`. -/
structure Timer where
  id : Nat
  name : String
  canRepeat : Bool
deriving DecidableEq, Repr

/-- State of the shared worker: registry, connected ports, armed timers,
and the next fresh `setInterval` handle. -/
structure WorkerState where
  tasks : List (String × Task)
  ports : List Nat
  liveTimers : List Timer
  nextTimerId : Nat
deriving DecidableEq, Repr

/-- A `postMessage` sent by the worker to one port. -/
inductive WEvent where
  | timerTick (port : Nat) (taskName : String) (timestamp : Int)
  | taskCleared (port : Nat) (taskName : String)
  | allTasksCleared (port : Nat)
  | pong (port : Nat) (taskName : String)
deriving DecidableEq, Repr

/-- `clearInterval(tid)`: the timer with that handle no longer fires. -/
def eraseTimer (l : List Timer) (tid : Nat) : List Timer :=
  l.filter (fun tm => tm.id ≠ tid)

/-- `addTask(taskName, intervalTime, canRepeat)` from
src/dist/shared-timer-worker.js: clear the existing timer for the name if
present, arm a fresh interval timer, and store the new registry entry. -/
def addTask (st : WorkerState) (taskName : String) (intervalTime : Int)
    (canRepeat : Bool) : WorkerState :=
  let live :=
    match mapGet st.tasks taskName with
    | some t => eraseTimer st.liveTimers t.timerId
    | none => st.liveTimers
  let tid := st.nextTimerId
  ⟨mapSet st.tasks taskName ⟨tid, intervalTime, canRepeat⟩,
   st.ports,
   live ++ [⟨tid, taskName, canRepeat⟩],
   tid + 1⟩

/-- `clearTask(taskName)`: if present, clear its interval, delete it from
the registry and broadcast `TASK_CLEARED` to every port; else do nothing. -/
def clearTask (st : WorkerState) (taskName : String) :
    WorkerState × List WEvent :=
  match mapGet st.tasks taskName with
  | some task =>
      (⟨mapDelete st.tasks taskName,
        st.ports,
        eraseTimer st.liveTimers task.timerId,
        st.nextTimerId⟩,
       st.ports.map (fun p => WEvent.taskCleared p taskName))
  | none => (st, [])

/-- `removeAllTasks()`: clear every registered interval, empty the registry
and broadcast `ALL_TASKS_CLEARED` to every port. -/
def removeAllTasks (st : WorkerState) : WorkerState × List WEvent :=
  (⟨[],
    st.ports,
    st.tasks.foldl (fun acc e => eraseTimer acc e.2.timerId) st.liveTimers,
    st.nextTimerId⟩,
   st.ports.map (fun p => WEvent.allTasksCleared p))

/-- Body of the `setInterval` closure in `addTask`: broadcast
`TIMER_TICK(taskName, now)` to every port, then, if the captured
`canRepeat` is false, run `clearTask(taskName)`. -/
def fireTimer (st : WorkerState) (tm : Timer) (ts : Int) :
    WorkerState × List WEvent :=
  let ticks := st.ports.map (fun p => WEvent.timerTick p tm.name ts)
  if tm.canRepeat = false then
    let r := clearTask st tm.name
    (r.1, ticks ++ r.2)
  else
    (st, ticks)

/-- Payload of a message arriving on a worker port:
`{ action, taskName, intervalTime, canRepeat }`. -/
structure MsgData where
  action : String
  taskName : String
  intervalTime : Int
  canRepeat : Bool
deriving DecidableEq, Repr

/-- One atomic step of the worker's single-threaded event loop: a new port
connecting (`onconnect`), a message arriving on a port (`port.onmessage`),
or an armed timer firing. -/
inductive WorkerOp where
  | connect (port : Nat)
  | message (port : Nat) (data : MsgData)
  | fire (tid : Nat) (ts : Int)
deriving DecidableEq, Repr

/-- JS `Set.prototype.add`. -/
def setAdd (l : List Nat) (p : Nat) : List Nat :=
  if p ∈ l then l else l ++ [p]

/-- The worker's event dispatch: `onconnect` adds the port; `onmessage`
switches on `action` (unknown actions fall through); a fire step runs the
interval closure of a still-armed timer and is a no-op for a cleared
handle. -/
def workerStep (st : WorkerState) (op : WorkerOp) :
    WorkerState × List WEvent :=
  match op with
  | .connect p => (⟨st.tasks, setAdd st.ports p, st.liveTimers, st.nextTimerId⟩, [])
  | .message p d =>
      if d.action = "ADD_TASK" then
        (addTask st d.taskName d.intervalTime d.canRepeat, [])
      else if d.action = "CLEAR_TASK" then clearTask st d.taskName
      else if d.action = "REMOVE_ALL" then removeAllTasks st
      else if d.action = "PING" then (st, [WEvent.pong p d.taskName])
      else (st, [])
  | .fire tid ts =>
      match st.liveTimers.find? (fun tm => tm.id = tid) with
      | some tm => fireTimer st tm ts
      | none => (st, [])

/-- Fresh worker: empty registry, no ports, no timers. -/
def initState : WorkerState := ⟨[], [], [], 0⟩

/-- States the worker can be in after some sequence of events. -/
inductive Reachable : WorkerState → Prop where
  | init : Reachable initState
  | step (st : WorkerState) (op : WorkerOp) :
      Reachable st → Reachable (workerStep st op).1

/-- JS runtime values as far as the proxy's validation observes them:
`typeof v` and numeric comparison.  Function values are identified by an
opaque id.  (NaN and the infinities do not occur in the modelled runs.) -/
inductive JSVal where
  | num (n : Int)
  | str (s : String)
  | boolean (b : Bool)
  | fn (id : Nat)
  | undef
deriving DecidableEq, Repr

/-- `typeof v === 'function'`. -/
def isCallable : JSVal → Bool
  | .fn _ => true
  | _ => false

/-- `typeof v === 'number'`. -/
def isNumber : JSVal → Bool
  | .num _ => true
  | _ => false

/-- JS `v <= 0` for the values reaching that check (numbers). -/
def leZero : JSVal → Bool
  | .num n => n ≤ 0
  | _ => false

/-- State of one `TimerManager` proxy: its local callback map and the
`isConnected` flag set by `init()`. -/
structure ProxyState where
  callbacks : List (String × JSVal)
  isConnected : Bool
deriving DecidableEq, Repr

/-- A message the proxy posts on its worker port. -/
inductive OutMsg where
  | addTaskMsg (taskName : String) (intervalTime : JSVal) (canRepeat : Bool)
  | clearTaskMsg (taskName : String)
  | removeAllMsg
  | pingMsg (taskName : String)
deriving DecidableEq, Repr

/-- The `throw new Error(...)` sites of TimerManager, by message. -/
inductive PError where
  | notConnected
  | callbackNotFunction
  | intervalNotPositive
deriving DecidableEq, Repr

/-- `addTimerTask(taskName, intervalTime, callback, canRepeat)` from
src/dist/timer-manager.esm.js: returns the state after the call, the
posted messages and the thrown error, if any.  The source checks, in
order: `!this.isConnected`, `typeof callback !== 'function'`,
`typeof intervalTime !== 'number' || intervalTime <= 0`; only then does
it store the callback and post `ADD_TASK`. -/
def addTimerTask (st : ProxyState) (taskName : String)
    (intervalTime : JSVal) (callback : JSVal) (canRepeat : Bool) :
    ProxyState × List OutMsg × Option PError :=
  if st.isConnected = false then (st, [], some .notConnected)
  else if isCallable callback = false then (st, [], some .callbackNotFunction)
  else if isNumber intervalTime = false ∨ leZero intervalTime = true then
    (st, [], some .intervalNotPositive)
  else
    (⟨mapSet st.callbacks taskName callback, st.isConnected⟩,
     [OutMsg.addTaskMsg taskName intervalTime canRepeat], none)

/-- `clearTimerTask(taskName)`: delete the local callback (whether or not
present) and post `CLEAR_TASK`. -/
def clearTimerTask (st : ProxyState) (taskName : String) :
    ProxyState × List OutMsg × Option PError :=
  if st.isConnected = false then (st, [], some .notConnected)
  else
    (⟨mapDelete st.callbacks taskName, st.isConnected⟩,
     [OutMsg.clearTaskMsg taskName], none)

/-- `removeAllTimerTasks()`: clear the local callback map and post
`REMOVE_ALL`. -/
def removeAllTimerTasks (st : ProxyState) :
    ProxyState × List OutMsg × Option PError :=
  if st.isConnected = false then (st, [], some .notConnected)
  else (⟨[], st.isConnected⟩, [OutMsg.removeAllMsg], none)

/-- `ping(taskName)`: `false` without sending when disconnected, else post
`PING` and return `true`. -/
def ping (st : ProxyState) (taskName : String) :
    ProxyState × List OutMsg × Bool :=
  if st.isConnected = false then (st, [], false)
  else (st, [OutMsg.pingMsg taskName], true)

/-- `getActiveTasks()`: `Array.from(this.callbacks.keys())`. -/
def getActiveTasks (st : ProxyState) : List String :=
  st.callbacks.map Prod.fst

/-- `hasTask(taskName)`: `this.callbacks.has(taskName)`. -/
def hasTask (st : ProxyState) (taskName : String) : Bool :=
  (mapGet st.callbacks taskName).isSome

/-- Payload of a message arriving from the worker:
`{ action, taskName, timestamp }`. -/
structure WMsgData where
  action : String
  taskName : String
  timestamp : Int
deriving DecidableEq, Repr

/-- A record of one `callback(taskName, timestamp)` call made by the
proxy's message handler. -/
structure Invocation where
  callback : JSVal
  arg1 : String
  arg2 : Int
deriving DecidableEq, Repr

/-- `handleWorkerMessage(data)`: on `TIMER_TICK` invoke the callback for
the name if one is stored; `TASK_CLEARED` is left unhandled;
`ALL_TASKS_CLEARED` clears the whole callback map; anything else falls
through the switch. -/
def handleWorkerMessage (st : ProxyState) (data : WMsgData) :
    ProxyState × List Invocation :=
  if data.action = "TIMER_TICK" then
    match mapGet st.callbacks data.taskName with
    | some cb => (st, [⟨cb, data.taskName, data.timestamp⟩])
    | none => (st, [])
  else if data.action = "TASK_CLEARED" then (st, [])
  else if data.action = "ALL_TASKS_CLEARED" then
    (⟨[], st.isConnected⟩, [])
  else (st, [])

/-! ### Association-list facts (JS `Map` semantics) -/

/-- Keys of an association list are duplicate-free (a `Map` invariant). -/
def keysNodup {α : Type} (m : List (String × α)) : Prop :=
  (m.map Prod.fst).Nodup

/-- The worker's state invariant, preserved by every event-loop step:
registry keys, registry timer handles, live timer handles and ports are
duplicate-free; every handle ever issued is below the freshness counter;
every armed timer corresponds to the current registry entry for its
captured name (same handle, same repeat flag); and every registry entry
has its timer armed. -/
structure Inv (st : WorkerState) : Prop where
  tasksKeys : keysNodup st.tasks
  portsNodup : st.ports.Nodup
  taskIds : (st.tasks.map (fun e => e.2.timerId)).Nodup
  liveIds : (st.liveTimers.map Timer.id).Nodup
  boundTasks : ∀ e ∈ st.tasks, e.2.timerId < st.nextTimerId
  boundLive : ∀ tm ∈ st.liveTimers, tm.id < st.nextTimerId
  liveMatch : ∀ tm ∈ st.liveTimers, ∃ tsk,
      mapGet st.tasks tm.name = some tsk ∧
      tsk.timerId = tm.id ∧ tsk.canRepeat = tm.canRepeat
  taskLive : ∀ e ∈ st.tasks, ∃ tm ∈ st.liveTimers, tm.id = e.2.timerId ∧
      tm.name = e.1 ∧ tm.canRepeat = e.2.canRepeat

theorem mapGet_nil {α : Type} (k : String) :
    mapGet ([] : List (String × α)) k = none := rfl

theorem mapGet_cons_pos {α : Type} (rest : List (String × α)) (k : String)
    (v : α) : mapGet ((k, v) :: rest) k = some v := by
  simp [mapGet]

theorem mapGet_cons_neg {α : Type} {k' k : String} (h : k' ≠ k)
    (rest : List (String × α)) (v : α) :
    mapGet ((k', v) :: rest) k = mapGet rest k := by
  simp [mapGet, h]

theorem mapSet_nil {α : Type} (k : String) (v : α) :
    mapSet ([] : List (String × α)) k v = [(k, v)] := rfl

theorem mapSet_cons_pos {α : Type} (rest : List (String × α)) (k : String)
    (v v' : α) : mapSet ((k, v') :: rest) k v = (k, v) :: rest := by
  simp [mapSet]

theorem mapSet_cons_neg {α : Type} {k' k : String} (h : k' ≠ k)
    (rest : List (String × α)) (v v' : α) :
    mapSet ((k', v') :: rest) k v = (k', v') :: mapSet rest k v := by
  simp [mapSet, h]

theorem mapDelete_nil {α : Type} (k : String) :
    mapDelete ([] : List (String × α)) k = [] := rfl

theorem mapDelete_cons_pos {α : Type} (rest : List (String × α))
    (k : String) (v' : α) : mapDelete ((k, v') :: rest) k = rest := by
  simp [mapDelete]

theorem mapDelete_cons_neg {α : Type} {k' k : String} (h : k' ≠ k)
    (rest : List (String × α)) (v' : α) :
    mapDelete ((k', v') :: rest) k = (k', v') :: mapDelete rest k := by
  simp [mapDelete, h]

theorem mapGet_eq_some_mem {α : Type} {m : List (String × α)} {k : String}
    {v : α} (h : mapGet m k = some v) : (k, v) ∈ m := by
  induction m with
  | nil => simp [mapGet_nil] at h
  | cons e rest ih =>
      obtain ⟨k', v'⟩ := e
      by_cases hk : k' = k
      · subst hk
        rw [mapGet_cons_pos] at h
        injection h with hv
        subst hv
        exact List.mem_cons_self _ _
      · rw [mapGet_cons_neg hk] at h
        exact List.mem_cons_of_mem _ (ih h)

theorem mapGet_of_mem {α : Type} {m : List (String × α)} {k : String}
    {v : α} (hn : keysNodup m) (h : (k, v) ∈ m) : mapGet m k = some v := by
  induction m with
  | nil => simp at h
  | cons e rest ih =>
      obtain ⟨k', v'⟩ := e
      simp only [keysNodup, List.map_cons, List.nodup_cons] at hn
      rcases List.mem_cons.mp h with h1 | h2
      · injection h1 with ha hb
        subst ha
        subst hb
        exact mapGet_cons_pos rest k v
      · have hk : k' ≠ k := by
          intro he
          subst he
          exact hn.1 (List.mem_map.mpr ⟨(k', v), h2, rfl⟩)
        rw [mapGet_cons_neg hk]
        exact ih hn.2 h2

theorem mapGet_isSome_iff_mem_keys {α : Type} {m : List (String × α)}
    {k : String} : (mapGet m k).isSome = true ↔ k ∈ m.map Prod.fst := by
  induction m with
  | nil => simp [mapGet_nil]
  | cons e rest ih =>
      obtain ⟨k', v'⟩ := e
      by_cases hk : k' = k
      · subst hk
        simp [mapGet_cons_pos]
      · rw [mapGet_cons_neg hk]
        simp [ih, Ne.symm hk]

theorem mapGet_mapSet_self {α : Type} (m : List (String × α)) (k : String)
    (v : α) : mapGet (mapSet m k v) k = some v := by
  induction m with
  | nil => rw [mapSet_nil, mapGet_cons_pos]
  | cons e rest ih =>
      obtain ⟨k', v'⟩ := e
      by_cases hk : k' = k
      · subst hk
        rw [mapSet_cons_pos, mapGet_cons_pos]
      · rw [mapSet_cons_neg hk, mapGet_cons_neg hk]
        exact ih

theorem mapGet_mapSet_ne {α : Type} (m : List (String × α)) {k q : String}
    (v : α) (h : q ≠ k) : mapGet (mapSet m k v) q = mapGet m q := by
  induction m with
  | nil => rw [mapSet_nil, mapGet_cons_neg (Ne.symm h)]
  | cons e rest ih =>
      obtain ⟨k', v'⟩ := e
      by_cases hk : k' = k
      · subst hk
        have hq : k' ≠ q := fun hq => h hq.symm
        rw [mapSet_cons_pos, mapGet_cons_neg hq, mapGet_cons_neg hq]
      · rw [mapSet_cons_neg hk]
        by_cases hq : k' = q
        · subst hq
          rw [mapGet_cons_pos, mapGet_cons_pos]
        · rw [mapGet_cons_neg hq, mapGet_cons_neg hq]
          exact ih

theorem mem_mapSet {α : Type} {m : List (String × α)} {k : String} {v : α}
    {e : String × α} : e ∈ mapSet m k v → e = (k, v) ∨ e ∈ m := by
  induction m with
  | nil =>
      intro h
      rw [mapSet_nil] at h
      exact Or.inl (List.mem_singleton.mp h)
  | cons e' rest ih =>
      obtain ⟨k', v'⟩ := e'
      intro h
      by_cases hk : k' = k
      · subst hk
        rw [mapSet_cons_pos] at h
        rcases List.mem_cons.mp h with h | h
        · exact Or.inl h
        · exact Or.inr (List.mem_cons_of_mem _ h)
      · rw [mapSet_cons_neg hk] at h
        rcases List.mem_cons.mp h with h | h
        · exact Or.inr (h ▸ List.mem_cons_self _ _)
        · rcases ih h with h1 | h2
          · exact Or.inl h1
          · exact Or.inr (List.mem_cons_of_mem _ h2)

theorem self_mem_mapSet {α : Type} (m : List (String × α)) (k : String)
    (v : α) : (k, v) ∈ mapSet m k v := by
  induction m with
  | nil =>
      rw [mapSet_nil]
      exact List.mem_singleton.mpr rfl
  | cons e rest ih =>
      obtain ⟨k', v'⟩ := e
      by_cases hk : k' = k
      · subst hk
        rw [mapSet_cons_pos]
        exact List.mem_cons_self _ _
      · rw [mapSet_cons_neg hk]
        exact List.mem_cons_of_mem _ ih

theorem mem_mapSet_iff {α : Type} {m : List (String × α)} {k : String}
    {v : α} {e : String × α} (hn : keysNodup m) :
    e ∈ mapSet m k v ↔ e = (k, v) ∨ (e ∈ m ∧ e.1 ≠ k) := by
  induction m with
  | nil =>
      rw [mapSet_nil]
      simp
  | cons e' rest ih =>
      obtain ⟨k', v'⟩ := e'
      simp only [keysNodup, List.map_cons, List.nodup_cons] at hn
      by_cases hk : k' = k
      · subst hk
        rw [mapSet_cons_pos]
        simp only [List.mem_cons]
        constructor
        · rintro (h | h)
          · exact Or.inl h
          · refine Or.inr ⟨Or.inr h, ?_⟩
            intro he
            exact hn.1 (List.mem_map.mpr ⟨e, h, he⟩)
        · rintro (h | ⟨h1 | h2, hne⟩)
          · exact Or.inl h
          · exact absurd (congrArg Prod.fst h1) hne
          · exact Or.inr h2
      · rw [mapSet_cons_neg hk]
        simp only [List.mem_cons, ih hn.2]
        constructor
        · rintro (h | h | ⟨hm, hne⟩)
          · exact Or.inr ⟨Or.inl h, h ▸ hk⟩
          · exact Or.inl h
          · exact Or.inr ⟨Or.inr hm, hne⟩
        · rintro (h | ⟨h1 | h2, hne⟩)
          · exact Or.inr (Or.inl h)
          · exact Or.inl h1
          · exact Or.inr (Or.inr ⟨h2, hne⟩)

theorem keysNodup_mapSet {α : Type} {m : List (String × α)} {k : String}
    {v : α} (hn : keysNodup m) : keysNodup (mapSet m k v) := by
  induction m with
  | nil =>
      rw [keysNodup, mapSet_nil]
      simp
  | cons e rest ih =>
      obtain ⟨k', v'⟩ := e
      simp only [keysNodup, List.map_cons, List.nodup_cons] at hn
      by_cases hk : k' = k
      · subst hk
        rw [keysNodup, mapSet_cons_pos]
        simpa using hn
      · rw [keysNodup, mapSet_cons_neg hk]
        simp only [List.map_cons, List.nodup_cons]
        refine ⟨?_, ih hn.2⟩
        intro hmem
        rcases List.mem_map.mp hmem with ⟨e, he, hfst⟩
        rcases mem_mapSet he with h1 | h2
        · subst h1
          exact hk hfst.symm
        · exact hn.1 (List.mem_map.mpr ⟨e, h2, hfst⟩)

theorem mapDelete_sublist {α : Type} (m : List (String × α)) (k : String) :
    List.Sublist (mapDelete m k) m := by
  induction m with
  | nil => simp [mapDelete_nil]
  | cons e rest ih =>
      obtain ⟨k', v'⟩ := e
      by_cases hk : k' = k
      · subst hk
        rw [mapDelete_cons_pos]
        exact List.sublist_cons_self _ _
      · rw [mapDelete_cons_neg hk]
        exact List.Sublist.cons₂ (k', v') ih

theorem keysNodup_mapDelete {α : Type} {m : List (String × α)} {k : String}
    (hn : keysNodup m) : keysNodup (mapDelete m k) :=
  List.Nodup.sublist (List.Sublist.map _ (mapDelete_sublist m k)) hn

theorem mapGet_mapDelete_self {α : Type} {m : List (String × α)}
    {k : String} (hn : keysNodup m) : mapGet (mapDelete m k) k = none := by
  induction m with
  | nil => rw [mapDelete_nil, mapGet_nil]
  | cons e rest ih =>
      obtain ⟨k', v'⟩ := e
      simp only [keysNodup, List.map_cons, List.nodup_cons] at hn
      by_cases hk : k' = k
      · subst hk
        rw [mapDelete_cons_pos]
        cases h : mapGet rest k' with
        | none => rfl
        | some v =>
            exact absurd
              (List.mem_map.mpr ⟨(k', v), mapGet_eq_some_mem h, rfl⟩) hn.1
      · rw [mapDelete_cons_neg hk, mapGet_cons_neg hk]
        exact ih hn.2

theorem mapGet_mapDelete_ne {α : Type} {m : List (String × α)}
    {k q : String} (h : q ≠ k) :
    mapGet (mapDelete m k) q = mapGet m q := by
  induction m with
  | nil => rw [mapDelete_nil]
  | cons e rest ih =>
      obtain ⟨k', v'⟩ := e
      by_cases hk : k' = k
      · subst hk
        have hq : k' ≠ q := fun hq => h hq.symm
        rw [mapDelete_cons_pos, mapGet_cons_neg hq]
      · by_cases hq : k' = q
        · subst hq
          rw [mapDelete_cons_neg hk, mapGet_cons_pos, mapGet_cons_pos]
        · rw [mapDelete_cons_neg hk, mapGet_cons_neg hq, mapGet_cons_neg hq]
          exact ih

theorem mem_mapDelete_iff {α : Type} {m : List (String × α)} {k : String}
    {e : String × α} (hn : keysNodup m) :
    e ∈ mapDelete m k ↔ e ∈ m ∧ e.1 ≠ k := by
  induction m with
  | nil =>
      rw [mapDelete_nil]
      simp
  | cons e' rest ih =>
      obtain ⟨k', v'⟩ := e'
      simp only [keysNodup, List.map_cons, List.nodup_cons] at hn
      by_cases hk : k' = k
      · subst hk
        rw [mapDelete_cons_pos]
        simp only [List.mem_cons]
        constructor
        · intro h
          refine ⟨Or.inr h, ?_⟩
          intro he
          exact hn.1 (List.mem_map.mpr ⟨e, h, he⟩)
        · rintro ⟨h1 | h2, hne⟩
          · exact absurd (congrArg Prod.fst h1) hne
          · exact h2
      · rw [mapDelete_cons_neg hk]
        simp only [List.mem_cons, ih hn.2]
        constructor
        · rintro (h | ⟨hm, hne⟩)
          · exact ⟨Or.inl h, h ▸ hk⟩
          · exact ⟨Or.inr hm, hne⟩
        · rintro ⟨h1 | h2, hne⟩
          · exact Or.inl h1
          · exact Or.inr ⟨h2, hne⟩

theorem mem_eraseTimer {l : List Timer} {tid : Nat} {tm : Timer} :
    tm ∈ eraseTimer l tid ↔ tm ∈ l ∧ tm.id ≠ tid := by
  simp [eraseTimer, List.mem_filter]

theorem eraseTimer_sublist (l : List Timer) (tid : Nat) :
    List.Sublist (eraseTimer l tid) l :=
  List.filter_sublist l

theorem mem_foldl_erase (ts : List (String × Task)) (l : List Timer)
    (tm : Timer) :
    tm ∈ ts.foldl (fun acc e => eraseTimer acc e.2.timerId) l ↔
      tm ∈ l ∧ ∀ e ∈ ts, tm.id ≠ e.2.timerId := by
  induction ts generalizing l with
  | nil => simp
  | cons e rest ih =>
      simp only [List.foldl_cons, ih, mem_eraseTimer, List.mem_cons]
      constructor
      · rintro ⟨⟨hl, hne⟩, hall⟩
        refine ⟨hl, ?_⟩
        rintro e' (rfl | he')
        · exact hne
        · exact hall e' he'
      · rintro ⟨hl, hall⟩
        exact ⟨⟨hl, hall e (Or.inl rfl)⟩, fun e' he' => hall e' (Or.inr he')⟩

/-! ### Invariant preservation -/

theorem taskIds_nodup_mapSet {m : List (String × Task)} {k : String}
    {v : Task} (h : (m.map (fun e => e.2.timerId)).Nodup)
    (hfresh : ∀ e ∈ m, e.2.timerId ≠ v.timerId) :
    ((mapSet m k v).map (fun e => e.2.timerId)).Nodup := by
  induction m with
  | nil =>
      rw [mapSet_nil]
      simp
  | cons e rest ih =>
      obtain ⟨k', v'⟩ := e
      simp only [List.map_cons, List.nodup_cons] at h
      by_cases hk : k' = k
      · subst hk
        rw [mapSet_cons_pos]
        simp only [List.map_cons, List.nodup_cons]
        refine ⟨?_, h.2⟩
        intro hmem
        rcases List.mem_map.mp hmem with ⟨e, he, hid⟩
        exact hfresh e (List.mem_cons_of_mem _ he) hid
      · rw [mapSet_cons_neg hk]
        simp only [List.map_cons, List.nodup_cons]
        constructor
        · intro hmem
          rcases List.mem_map.mp hmem with ⟨e, he, hid⟩
          rcases mem_mapSet he with h1 | h2
          · subst h1
            exact hfresh (k', v') (List.mem_cons_self _ _) hid.symm
          · exact h.1 (List.mem_map.mpr ⟨e, h2, hid⟩)
        · exact ih h.2 (fun e he => hfresh e (List.mem_cons_of_mem _ he))

theorem setAdd_nodup {l : List Nat} {p : Nat} (h : l.Nodup) :
    (setAdd l p).Nodup := by
  unfold setAdd
  by_cases hp : p ∈ l
  · simpa [hp] using h
  · simp [hp, List.nodup_append, h]

theorem inv_addTask_aux {st : WorkerState} (h : Inv st) (n : String)
    (i : Int) (r : Bool) (live0 : List Timer)
    (hsub : ∀ tm ∈ live0, tm ∈ st.liveTimers)
    (hnodup : (live0.map Timer.id).Nodup)
    (hnoname : ∀ tm ∈ live0, tm.name ≠ n)
    (hkeep : ∀ tm ∈ st.liveTimers, tm.name ≠ n → tm ∈ live0) :
    Inv ⟨mapSet st.tasks n ⟨st.nextTimerId, i, r⟩, st.ports,
         live0 ++ [⟨st.nextTimerId, n, r⟩], st.nextTimerId + 1⟩ := by
  refine ⟨?_, h.portsNodup, ?_, ?_, ?_, ?_, ?_, ?_⟩
  · exact keysNodup_mapSet h.tasksKeys
  · exact taskIds_nodup_mapSet h.taskIds
      (fun e he => Nat.ne_of_lt (h.boundTasks e he))
  · rw [List.map_append, List.nodup_append]
    refine ⟨hnodup, List.nodup_singleton _, ?_⟩
    intro a ha hb
    rcases List.mem_map.mp ha with ⟨tm, htm, hid⟩
    have hlt : tm.id < st.nextTimerId := h.boundLive tm (hsub tm htm)
    have hae : a = st.nextTimerId := by simpa using hb
    rw [hid, hae] at hlt
    exact Nat.lt_irrefl _ hlt
  · intro e he
    rcases mem_mapSet he with h1 | h2
    · subst h1
      exact Nat.lt_succ_self _
    · exact Nat.lt_trans (h.boundTasks e h2) (Nat.lt_succ_self _)
  · intro tm htm
    rcases List.mem_append.mp htm with h1 | h2
    · exact Nat.lt_trans (h.boundLive tm (hsub tm h1)) (Nat.lt_succ_self _)
    · rw [List.mem_singleton.mp h2]
      exact Nat.lt_succ_self _
  · intro tm htm
    rcases List.mem_append.mp htm with h1 | h2
    · obtain ⟨tsk', hg, hid, hrep⟩ := h.liveMatch tm (hsub tm h1)
      refine ⟨tsk', ?_, hid, hrep⟩
      rw [mapGet_mapSet_ne _ _ (hnoname tm h1)]
      exact hg
    · rw [List.mem_singleton.mp h2]
      exact ⟨⟨st.nextTimerId, i, r⟩, mapGet_mapSet_self _ _ _, rfl, rfl⟩
  · intro e he
    rcases (mem_mapSet_iff h.tasksKeys).mp he with h1 | h2
    · subst h1
      refine ⟨⟨st.nextTimerId, n, r⟩, ?_, rfl, rfl, rfl⟩
      exact List.mem_append_right _ (List.mem_singleton.mpr rfl)
    · obtain ⟨hmem, hne⟩ := h2
      obtain ⟨tm, htm, hid, hname, hrep⟩ := h.taskLive e hmem
      refine ⟨tm, ?_, hid, hname, hrep⟩
      refine List.mem_append_left _ (hkeep tm htm ?_)
      rw [hname]
      exact hne

theorem inv_addTask {st : WorkerState} (h : Inv st) (n : String) (i : Int)
    (r : Bool) : Inv (addTask st n i r) := by
  cases hget : mapGet st.tasks n with
  | none =>
      have he : addTask st n i r =
          ⟨mapSet st.tasks n ⟨st.nextTimerId, i, r⟩, st.ports,
           st.liveTimers ++ [⟨st.nextTimerId, n, r⟩], st.nextTimerId + 1⟩ := by
        simp [addTask, hget]
      rw [he]
      refine inv_addTask_aux h n i r st.liveTimers (fun tm htm => htm)
        h.liveIds ?_ (fun tm htm _ => htm)
      intro tm htm heq
      obtain ⟨tsk', hg, _, _⟩ := h.liveMatch tm htm
      rw [heq, hget] at hg
      exact Option.noConfusion hg
  | some t =>
      have he : addTask st n i r =
          ⟨mapSet st.tasks n ⟨st.nextTimerId, i, r⟩, st.ports,
           eraseTimer st.liveTimers t.timerId ++ [⟨st.nextTimerId, n, r⟩],
           st.nextTimerId + 1⟩ := by
        simp [addTask, hget]
      rw [he]
      refine inv_addTask_aux h n i r (eraseTimer st.liveTimers t.timerId)
        (fun tm htm => (mem_eraseTimer.mp htm).1) ?_ ?_ ?_
      · exact List.Nodup.sublist (List.Sublist.map _ (eraseTimer_sublist _ _))
          h.liveIds
      · intro tm htm heq
        obtain ⟨htm', hne⟩ := mem_eraseTimer.mp htm
        obtain ⟨tsk', hg, hid, _⟩ := h.liveMatch tm htm'
        rw [heq, hget] at hg
        injection hg with hg'
        apply hne
        rw [hg']
        exact hid.symm
      · intro tm htm hname
        refine mem_eraseTimer.mpr ⟨htm, ?_⟩
        intro heq
        obtain ⟨tsk', hg, hid, _⟩ := h.liveMatch tm htm
        have h1 : (n, t) ∈ st.tasks := mapGet_eq_some_mem hget
        have h2 : (tm.name, tsk') ∈ st.tasks := mapGet_eq_some_mem hg
        have hfeq : (fun e : String × Task => e.2.timerId) (tm.name, tsk') =
            (fun e : String × Task => e.2.timerId) (n, t) := by
          simp only []
          rw [hid, heq]
        have := List.inj_on_of_nodup_map h.taskIds h2 h1 hfeq
        exact hname (congrArg Prod.fst this)

theorem inv_clearTask {st : WorkerState} (h : Inv st) (n : String) :
    Inv (clearTask st n).1 := by
  cases hget : mapGet st.tasks n with
  | none => simpa [clearTask, hget] using h
  | some t =>
      have he : (clearTask st n).1 =
          ⟨mapDelete st.tasks n, st.ports,
           eraseTimer st.liveTimers t.timerId, st.nextTimerId⟩ := by
        simp [clearTask, hget]
      rw [he]
      refine ⟨?_, h.portsNodup, ?_, ?_, ?_, ?_, ?_, ?_⟩
      · exact keysNodup_mapDelete h.tasksKeys
      · exact List.Nodup.sublist (List.Sublist.map _ (mapDelete_sublist _ _))
          h.taskIds
      · exact List.Nodup.sublist (List.Sublist.map _ (eraseTimer_sublist _ _))
          h.liveIds
      · intro e he'
        exact h.boundTasks e ((mem_mapDelete_iff h.tasksKeys).mp he').1
      · intro tm htm
        exact h.boundLive tm (mem_eraseTimer.mp htm).1
      · intro tm htm
        obtain ⟨htm', hne⟩ := mem_eraseTimer.mp htm
        obtain ⟨tsk', hg, hid, hrep⟩ := h.liveMatch tm htm'
        have hname : tm.name ≠ n := by
          intro heq
          rw [heq, hget] at hg
          injection hg with hg'
          apply hne
          rw [hg']
          exact hid.symm
        refine ⟨tsk', ?_, hid, hrep⟩
        rw [mapGet_mapDelete_ne hname]
        exact hg
      · intro e he'
        obtain ⟨hmem, hne⟩ := (mem_mapDelete_iff h.tasksKeys).mp he'
        obtain ⟨tm, htm, hid, hname, hrep⟩ := h.taskLive e hmem
        have hidne : e.2.timerId ≠ t.timerId := by
          intro heq
          have h1 : (n, t) ∈ st.tasks := mapGet_eq_some_mem hget
          have hfeq : (fun e : String × Task => e.2.timerId) e =
              (fun e : String × Task => e.2.timerId) (n, t) := heq
          have := List.inj_on_of_nodup_map h.taskIds hmem h1 hfeq
          exact hne (congrArg Prod.fst this)
        refine ⟨tm, mem_eraseTimer.mpr ⟨htm, ?_⟩, hid, hname, hrep⟩
        rw [hid]
        exact hidne

theorem removeAll_live_nil {st : WorkerState} (h : Inv st) :
    st.tasks.foldl (fun acc e => eraseTimer acc e.2.timerId)
      st.liveTimers = [] := by
  rw [List.eq_nil_iff_forall_not_mem]
  intro tm htm
  rw [mem_foldl_erase] at htm
  obtain ⟨htm', hall⟩ := htm
  obtain ⟨tsk', hg, hid, _⟩ := h.liveMatch tm htm'
  exact hall (tm.name, tsk') (mapGet_eq_some_mem hg) hid.symm

theorem inv_removeAll {st : WorkerState} (h : Inv st) :
    Inv (removeAllTasks st).1 := by
  have hl := removeAll_live_nil h
  refine ⟨?_, ?_, ?_, ?_, ?_, ?_, ?_, ?_⟩ <;>
    simp [removeAllTasks, hl, keysNodup, h.portsNodup]

theorem inv_step {st : WorkerState} (h : Inv st) (op : WorkerOp) :
    Inv (workerStep st op).1 := by
  cases op with
  | connect p =>
      refine ⟨h.tasksKeys, ?_, h.taskIds, h.liveIds, h.boundTasks,
        h.boundLive, h.liveMatch, h.taskLive⟩
      exact setAdd_nodup h.portsNodup
  | message p d =>
      by_cases h1 : d.action = "ADD_TASK"
      · simpa [workerStep, h1] using
          inv_addTask h d.taskName d.intervalTime d.canRepeat
      · by_cases h2 : d.action = "CLEAR_TASK"
        · simpa [workerStep, h1, h2] using inv_clearTask h d.taskName
        · by_cases h3 : d.action = "REMOVE_ALL"
          · simpa [workerStep, h1, h2, h3] using inv_removeAll h
          · by_cases h4 : d.action = "PING"
            · simpa [workerStep, h1, h2, h3, h4] using h
            · simpa [workerStep, h1, h2, h3, h4] using h
  | fire tid ts =>
      cases hf : st.liveTimers.find? (fun tm => tm.id = tid) with
      | none => simpa [workerStep, hf] using h
      | some tm =>
          have he : (workerStep st (.fire tid ts)).1 = (fireTimer st tm ts).1 := by
            simp [workerStep, hf]
          rw [he]
          by_cases hr : tm.canRepeat = false
          · simpa [fireTimer, hr] using inv_clearTask h tm.name
          · simpa [fireTimer, hr] using h

theorem inv_init : Inv initState := by
  refine ⟨?_, ?_, ?_, ?_, ?_, ?_, ?_, ?_⟩ <;> simp [initState, keysNodup]

theorem reachable_inv {st : WorkerState} (h : Reachable st) : Inv st := by
  induction h with
  | init => exact inv_init
  | step st op _ ih => exact inv_step ih op

/-! ### Small consequences used by the claim theorems -/

theorem workerStep_addMsg (st : WorkerState) (p : Nat) (n : String)
    (i : Int) (r : Bool) :
    workerStep st (.message p ⟨"ADD_TASK", n, i, r⟩) =
      (addTask st n i r, []) := rfl

theorem workerStep_clearMsg (st : WorkerState) (p : Nat) (n : String)
    (i : Int) (r : Bool) :
    workerStep st (.message p ⟨"CLEAR_TASK", n, i, r⟩) =
      clearTask st n := rfl

theorem workerStep_removeMsg (st : WorkerState) (p : Nat) (n : String)
    (i : Int) (r : Bool) :
    workerStep st (.message p ⟨"REMOVE_ALL", n, i, r⟩) =
      removeAllTasks st := rfl

theorem addTask_ports (st : WorkerState) (n : String) (i : Int) (r : Bool) :
    (addTask st n i r).ports = st.ports := by
  cases hget : mapGet st.tasks n <;> simp [addTask, hget]

theorem clearTask_ports (st : WorkerState) (n : String) :
    (clearTask st n).1.ports = st.ports := by
  cases hget : mapGet st.tasks n <;> simp [clearTask, hget]

theorem addTask_new_timer_mem (st : WorkerState) (n : String) (i : Int)
    (r : Bool) :
    (⟨st.nextTimerId, n, r⟩ : Timer) ∈ (addTask st n i r).liveTimers := by
  cases hget : mapGet st.tasks n <;> simp [addTask, hget]

theorem addTask_get (st : WorkerState) (n : String) (i : Int) (r : Bool) :
    mapGet (addTask st n i r).tasks n = some ⟨st.nextTimerId, i, r⟩ := by
  cases hget : mapGet st.tasks n <;>
    simp [addTask, hget, mapGet_mapSet_self]

theorem filter_key_length_le_one {α : Type} {m : List (String × α)}
    (hn : keysNodup m) (n : String) :
    (m.filter (fun e => e.1 = n)).length ≤ 1 := by
  induction m with
  | nil => simp
  | cons e rest ih =>
      obtain ⟨k, v⟩ := e
      simp only [keysNodup, List.map_cons, List.nodup_cons] at hn
      by_cases hk : k = n
      · subst hk
        have hrest : rest.filter (fun e => e.1 = k) = [] := by
          rw [List.filter_eq_nil_iff]
          intro a ha
          simp only [decide_eq_true_eq]
          intro heq
          exact hn.1 (List.mem_map.mpr ⟨a, ha, heq⟩)
        simp [hrest]
      · have he : (((k, v) :: rest).filter (fun e => e.1 = n)) =
            rest.filter (fun e => e.1 = n) := by
          simp [hk]
        rw [he]
        exact ih hn.2

theorem length_le_one_of_ids_eq {l : List Timer}
    (hn : (l.map Timer.id).Nodup)
    (heq : ∀ a ∈ l, ∀ b ∈ l, a.id = b.id) : l.length ≤ 1 := by
  cases l with
  | nil => simp
  | cons a t =>
      cases t with
      | nil => simp
      | cons b t2 =>
          exfalso
          simp only [List.map_cons, List.nodup_cons, List.mem_cons] at hn
          exact hn.1 (Or.inl (heq a (List.mem_cons_self _ _) b
            (List.mem_cons_of_mem _ (List.mem_cons_self _ _))))

theorem liveNamed_le_one {st : WorkerState} (h : Inv st) (n : String) :
    (st.liveTimers.filter (fun tm => tm.name = n)).length ≤ 1 := by
  apply length_le_one_of_ids_eq
  · exact List.Nodup.sublist (List.Sublist.map _ (List.filter_sublist _))
      h.liveIds
  · intro a ha b hb
    have ha' := List.mem_filter.mp ha
    have hb' := List.mem_filter.mp hb
    have han : a.name = n := by simpa using ha'.2
    have hbn : b.name = n := by simpa using hb'.2
    obtain ⟨ta, hga, hida, _⟩ := h.liveMatch a ha'.1
    obtain ⟨tb, hgb, hidb, _⟩ := h.liveMatch b hb'.1
    rw [han] at hga
    rw [hbn] at hgb
    rw [hga] at hgb
    injection hgb with he
    rw [← hida, ← hidb, he]

theorem find_live_timer {st : WorkerState} (h : Inv st) {tm : Timer}
    (htm : tm ∈ st.liveTimers) :
    st.liveTimers.find? (fun x => x.id = tm.id) = some tm := by
  cases hf : st.liveTimers.find? (fun x => x.id = tm.id) with
  | none =>
      rw [List.find?_eq_none] at hf
      exact absurd (by simp) (hf tm htm)
  | some tm' =>
      have h1 : tm' ∈ st.liveTimers := List.mem_of_find?_eq_some hf
      have h2 : tm'.id = tm.id := by
        have := List.find?_some hf
        simpa using this
      have := List.inj_on_of_nodup_map h.liveIds h1 htm h2
      rw [this]

/-! ### Claim theorems -/

/-- C1: in every reachable worker state, at most one registry entry and at
most one armed timer exist per task name; processing `ADD_TASK` for a name
whose registry entry is `tsk` leaves `tsk`'s timer handle cancelled; and
two `ADD_TASK` requests in a row for the same name (from any ports, with
any intervals and repeat flags) leave exactly one armed timer for that
name. -/
theorem addTask_single_timer_per_name (st : WorkerState) (h : Reachable st)
    (n : String) :
    ((st.tasks.filter (fun e => e.1 = n)).length ≤ 1 ∧
     (st.liveTimers.filter (fun tm => tm.name = n)).length ≤ 1) ∧
    (∀ tsk, mapGet st.tasks n = some tsk → ∀ p i r,
       tsk.timerId ∉
         ((workerStep st (.message p ⟨"ADD_TASK", n, i, r⟩)).1.liveTimers.map
           Timer.id)) ∧
    (∀ p1 i1 r1 p2 i2 r2,
       ((workerStep (workerStep st (.message p1 ⟨"ADD_TASK", n, i1, r1⟩)).1
           (.message p2 ⟨"ADD_TASK", n, i2, r2⟩)).1.liveTimers.filter
           (fun tm => tm.name = n)).length = 1) := by
  have hi := reachable_inv h
  refine ⟨⟨filter_key_length_le_one hi.tasksKeys n, liveNamed_le_one hi n⟩,
    ?_, ?_⟩
  · intro tsk hget p i r
    rw [workerStep_addMsg]
    intro hmem
    rcases List.mem_map.mp hmem with ⟨tm, htm, hid⟩
    have he : (addTask st n i r).liveTimers =
        eraseTimer st.liveTimers tsk.timerId ++ [⟨st.nextTimerId, n, r⟩] := by
      simp [addTask, hget]
    rw [he] at htm
    rcases List.mem_append.mp htm with h1 | h2
    · exact (mem_eraseTimer.mp h1).2 hid
    · have he2 : tm = ⟨st.nextTimerId, n, r⟩ := List.mem_singleton.mp h2
      subst he2
      have hlt := hi.boundTasks (n, tsk) (mapGet_eq_some_mem hget)
      rw [← hid] at hlt
      exact Nat.lt_irrefl _ hlt
  · intro p1 i1 r1 p2 i2 r2
    rw [workerStep_addMsg, workerStep_addMsg]
    have h2 : Inv (addTask (addTask st n i1 r1) n i2 r2) :=
      inv_addTask (inv_addTask hi n i1 r1) n i2 r2
    have hle := liveNamed_le_one h2 n
    have hmem : (⟨(addTask st n i1 r1).nextTimerId, n, r2⟩ : Timer) ∈
        (addTask (addTask st n i1 r1) n i2 r2).liveTimers :=
      addTask_new_timer_mem _ n i2 r2
    have hmemf : (⟨(addTask st n i1 r1).nextTimerId, n, r2⟩ : Timer) ∈
        (addTask (addTask st n i1 r1) n i2 r2).liveTimers.filter
          (fun tm => tm.name = n) := by
      rw [List.mem_filter]
      exact ⟨hmem, by simp⟩
    have hpos : 0 <
        ((addTask (addTask st n i1 r1) n i2 r2).liveTimers.filter
          (fun tm => tm.name = n)).length :=
      List.length_pos.mpr (List.ne_nil_of_mem hmemf)
    exact Nat.le_antisymm hle hpos

/-- C1 witness: from the fresh worker, two `ADD_TASK` requests for `"t"`
leave exactly one armed timer named `"t"`. -/
theorem addTask_single_timer_per_name_witness :
    ((workerStep (workerStep initState
        (.message 0 ⟨"ADD_TASK", "t", 5, true⟩)).1
        (.message 1 ⟨"ADD_TASK", "t", 7, false⟩)).1.liveTimers.filter
        (fun tm => tm.name = "t")).length = 1 :=
  (addTask_single_timer_per_name initState Reachable.init "t").2.2 0 5 true 1 7 false

/-- C2: in every reachable worker state with a registered non-repeating
task, one firing of its timer broadcasts exactly one
`TIMER_TICK(name, ts)` followed by exactly one `TASK_CLEARED(name)` to
every connected port (ticks first, within the same firing handler), the
task is removed from the registry, and no timer named `name` remains
armed. -/
theorem fire_nonrepeat_spec (st : WorkerState) (h : Reachable st)
    (n : String) (tsk : Task) (hget : mapGet st.tasks n = some tsk)
    (hrep : tsk.canRepeat = false) (ts : Int) :
    (workerStep st (.fire tsk.timerId ts)).2 =
      st.ports.map (fun p => WEvent.timerTick p n ts) ++
      st.ports.map (fun p => WEvent.taskCleared p n) ∧
    (∀ p ∈ st.ports,
       (workerStep st (.fire tsk.timerId ts)).2.count
         (WEvent.timerTick p n ts) = 1 ∧
       (workerStep st (.fire tsk.timerId ts)).2.count
         (WEvent.taskCleared p n) = 1) ∧
    mapGet (workerStep st (.fire tsk.timerId ts)).1.tasks n = none ∧
    (∀ tm ∈ (workerStep st (.fire tsk.timerId ts)).1.liveTimers,
       tm.name ≠ n) := by
  have hi := reachable_inv h
  obtain ⟨tm, htm, hid, hname, hrepm⟩ :=
    hi.taskLive (n, tsk) (mapGet_eq_some_mem hget)
  have hfind : st.liveTimers.find? (fun x => x.id = tsk.timerId) = some tm := by
    rw [← hid]
    exact find_live_timer hi htm
  have hstep : workerStep st (.fire tsk.timerId ts) = fireTimer st tm ts := by
    simp [workerStep, hfind]
  have hrep' : tm.canRepeat = false := by
    rw [hrepm, hrep]
  have hclear2 : clearTask st n =
      (⟨mapDelete st.tasks n, st.ports,
        eraseTimer st.liveTimers tsk.timerId, st.nextTimerId⟩,
       st.ports.map (fun p => WEvent.taskCleared p n)) := by
    simp [clearTask, hget]
  have hfire : fireTimer st tm ts = ((clearTask st tm.name).1,
      st.ports.map (fun p => WEvent.timerTick p tm.name ts) ++
      (clearTask st tm.name).2) := by
    simp [fireTimer, hrep']
  rw [hstep, hfire, hname, hclear2]
  refine ⟨rfl, ?_, mapGet_mapDelete_self hi.tasksKeys, ?_⟩
  · intro p hp
    have hinj1 : Function.Injective (fun q => WEvent.timerTick q n ts) := by
      intro a b hab
      injection hab
    have hinj2 : Function.Injective (fun q => WEvent.taskCleared q n) := by
      intro a b hab
      injection hab
    have hz1 : (st.ports.map (fun q => WEvent.taskCleared q n)).count
        (WEvent.timerTick p n ts) = 0 := by
      rw [List.count_eq_zero]
      intro hmem
      rcases List.mem_map.mp hmem with ⟨q, _, he⟩
      exact WEvent.noConfusion he
    have hz2 : (st.ports.map (fun q => WEvent.timerTick q n ts)).count
        (WEvent.taskCleared p n) = 0 := by
      rw [List.count_eq_zero]
      intro hmem
      rcases List.mem_map.mp hmem with ⟨q, _, he⟩
      exact WEvent.noConfusion he
    constructor
    · rw [List.count_append, List.count_map_of_injective _ _ hinj1,
        List.count_eq_one_of_mem hi.portsNodup hp, hz1]
    · rw [List.count_append, List.count_map_of_injective _ _ hinj2,
        List.count_eq_one_of_mem hi.portsNodup hp, hz2]
  · intro tm' htm' heq
    obtain ⟨htm'', hne⟩ := mem_eraseTimer.mp htm'
    obtain ⟨tsk', hg', hid', _⟩ := hi.liveMatch tm' htm''
    rw [heq, hget] at hg'
    injection hg' with hg''
    apply hne
    rw [hg'']
    exact hid'.symm

/-- C2 witness: a non-repeating task `"t"` with handle 0, fired once,
emits exactly the tick and then the cleared event on the one connected
port. -/
theorem fire_nonrepeat_spec_witness :
    (workerStep (workerStep (workerStep initState (.connect 0)).1
        (.message 0 ⟨"ADD_TASK", "t", 5, false⟩)).1 (.fire 0 99)).2 =
      [WEvent.timerTick 0 "t" 99, WEvent.taskCleared 0 "t"] := by
  have hr : Reachable (workerStep (workerStep initState (.connect 0)).1
      (.message 0 ⟨"ADD_TASK", "t", 5, false⟩)).1 :=
    Reachable.step _ _ (Reachable.step _ _ Reachable.init)
  have h := (fire_nonrepeat_spec _ hr "t" ⟨0, 5, false⟩ rfl rfl 99).1
  simpa using h

/-- C3 counterexample: the worker does not reject an `ADD_TASK` with a
non-positive interval — processing `ADD_TASK("t", 0, true)` on a fresh
worker installs task `"t"` in the registry and arms a timer for it. -/
theorem worker_accepts_nonpositive_interval :
    mapGet (workerStep (workerStep initState (.connect 0)).1
        (.message 0 ⟨"ADD_TASK", "t", 0, true⟩)).1.tasks "t" =
      some ⟨0, 0, true⟩ ∧
    (workerStep (workerStep initState (.connect 0)).1
        (.message 0 ⟨"ADD_TASK", "t", 0, true⟩)).1.liveTimers =
      [⟨0, "t", true⟩] := by
  decide

/-- C3 (amended): the worker installs every `ADD_TASK` request —
whatever the interval — in the registry and arms its timer; rejection
of non-positive intervals happens only on the proxy side, where
`addTimerTask` throws before sending anything. -/
theorem addTask_no_validation (st : WorkerState) (p : Nat) (n : String)
    (i : Int) (r : Bool) :
    mapGet (workerStep st (.message p ⟨"ADD_TASK", n, i, r⟩)).1.tasks n =
      some ⟨st.nextTimerId, i, r⟩ ∧
    (⟨st.nextTimerId, n, r⟩ : Timer) ∈
      (workerStep st (.message p ⟨"ADD_TASK", n, i, r⟩)).1.liveTimers ∧
    (∀ pst : ProxyState, pst.isConnected = true →
       ∀ cb, isCallable cb = true → i ≤ 0 →
       addTimerTask pst n (JSVal.num i) cb r =
         (pst, [], some PError.intervalNotPositive)) := by
  rw [workerStep_addMsg]
  refine ⟨addTask_get st n i r, addTask_new_timer_mem st n i r, ?_⟩
  intro pst hconn cb hcb hi
  have h1 : ¬pst.isConnected = false := by
    rw [hconn]
    simp
  have h2 : ¬isCallable cb = false := by
    rw [hcb]
    simp
  have h3 : leZero (JSVal.num i) = true := by
    simp [leZero, hi]
  simp [addTimerTask, h1, h2, h3]

/-- C3 witness: a connected proxy rejects interval 0 for a valid
callback without sending anything. -/
theorem addTask_no_validation_witness :
    addTimerTask ⟨[], true⟩ "t" (JSVal.num 0) (JSVal.fn 0) true =
      (⟨[], true⟩, [], some PError.intervalNotPositive) :=
  (addTask_no_validation initState 0 "t" 0 true).2.2 ⟨[], true⟩ rfl
    (JSVal.fn 0) rfl (by decide)

/-- C4 counterexample: `addTimerTask` on a connected proxy does not
validate the task name — the empty name `""` with a valid callback and
interval is accepted (no error), the callback is stored under `""` and
`ADD_TASK` is sent. -/
theorem addTimerTask_empty_name_ok :
    addTimerTask ⟨[], true⟩ "" (JSVal.num 100) (JSVal.fn 0) true =
      (⟨[("", JSVal.fn 0)], true⟩,
       [OutMsg.addTaskMsg "" (JSVal.num 100) true], none) := by
  decide

/-- C4 (amended): on a connected proxy, `addTimerTask` throws exactly
when the callback is not callable or the interval is not a positive
number (the task name, empty or not, is never validated); for valid
arguments it stores the callback under the name — overwriting any prior
entry — and sends `ADD_TASK`. -/
theorem addTimerTask_valid_spec (st : ProxyState)
    (hc : st.isConnected = true) (n : String) (iv cb : JSVal) (r : Bool) :
    (isCallable cb = false →
       addTimerTask st n iv cb r =
         (st, [], some PError.callbackNotFunction)) ∧
    (isCallable cb = true → isNumber iv = false ∨ leZero iv = true →
       addTimerTask st n iv cb r =
         (st, [], some PError.intervalNotPositive)) ∧
    (isCallable cb = true → isNumber iv = true → leZero iv = false →
       addTimerTask st n iv cb r =
         (⟨mapSet st.callbacks n cb, st.isConnected⟩,
          [OutMsg.addTaskMsg n iv r], none)) := by
  have h1 : ¬st.isConnected = false := by
    rw [hc]
    simp
  refine ⟨?_, ?_, ?_⟩
  · intro hcb
    simp [addTimerTask, h1, hcb]
  · intro hcb hiv
    have h2 : ¬isCallable cb = false := by
      rw [hcb]
      simp
    simp [addTimerTask, h1, h2, hiv]
  · intro hcb hnum hpos
    have h2 : ¬isCallable cb = false := by
      rw [hcb]
      simp
    have h3 : ¬(isNumber iv = false ∨ leZero iv = true) := by
      rw [hnum, hpos]
      simp
    simp [addTimerTask, h1, h2, h3]

/-- C4 witness: a valid call stores the callback and sends `ADD_TASK`. -/
theorem addTimerTask_valid_spec_witness :
    addTimerTask ⟨[], true⟩ "t" (JSVal.num 5) (JSVal.fn 1) false =
      (⟨[("t", JSVal.fn 1)], true⟩,
       [OutMsg.addTaskMsg "t" (JSVal.num 5) false], none) := by
  have h := (addTimerTask_valid_spec ⟨[], true⟩ rfl "t" (JSVal.num 5)
    (JSVal.fn 1) false).2.2 rfl rfl rfl
  simpa using h

/-- C5: whenever `addTimerTask` throws (not connected, bad callback or
bad interval), the proxy's callback map is unchanged and no message is
sent to the scheduler. -/
theorem addTimerTask_error_no_effect (st : ProxyState) (n : String)
    (iv cb : JSVal) (r : Bool) (e : PError)
    (h : (addTimerTask st n iv cb r).2.2 = some e) :
    (addTimerTask st n iv cb r).1 = st ∧
    (addTimerTask st n iv cb r).2.1 = [] := by
  by_cases h1 : st.isConnected = false
  · simp [addTimerTask, h1]
  · by_cases h2 : isCallable cb = false
    · simp [addTimerTask, h1, h2]
    · by_cases h3 : isNumber iv = false ∨ leZero iv = true
      · simp [addTimerTask, h1, h2, h3]
      · exfalso
        simp [addTimerTask, h1, h2, h3] at h

/-- C5 witness: the disconnected-proxy error leaves state and outbox
untouched. -/
theorem addTimerTask_error_no_effect_witness :
    (addTimerTask ⟨[("a", JSVal.fn 2)], false⟩ "t" (JSVal.num 5)
      (JSVal.fn 1) true).1 = ⟨[("a", JSVal.fn 2)], false⟩ ∧
    (addTimerTask ⟨[("a", JSVal.fn 2)], false⟩ "t" (JSVal.num 5)
      (JSVal.fn 1) true).2.1 = [] :=
  addTimerTask_error_no_effect ⟨[("a", JSVal.fn 2)], false⟩ "t"
    (JSVal.num 5) (JSVal.fn 1) true PError.notConnected (by decide)

/-- C6: in every reachable worker state, processing `REMOVE_ALL` empties
the registry, cancels every armed timer, and broadcasts
`ALL_TASKS_CLEARED` exactly once to each connected port; a proxy that
receives `ALL_TASKS_CLEARED` empties its callback map, so its
`getActiveTasks()` is the empty list. -/
theorem removeAll_spec (st : WorkerState) (h : Reachable st) (p : Nat)
    (n0 : String) (d1 : Int) (d2 : Bool) (pst : ProxyState) (ts0 : Int) :
    (workerStep st (.message p ⟨"REMOVE_ALL", n0, d1, d2⟩)).1.tasks = [] ∧
    (workerStep st (.message p ⟨"REMOVE_ALL", n0, d1, d2⟩)).1.liveTimers
      = [] ∧
    (workerStep st (.message p ⟨"REMOVE_ALL", n0, d1, d2⟩)).2 =
      st.ports.map (fun q => WEvent.allTasksCleared q) ∧
    (∀ q ∈ st.ports,
       (workerStep st (.message p ⟨"REMOVE_ALL", n0, d1, d2⟩)).2.count
         (WEvent.allTasksCleared q) = 1) ∧
    (handleWorkerMessage pst ⟨"ALL_TASKS_CLEARED", n0, ts0⟩).1.callbacks
      = [] ∧
    getActiveTasks
      (handleWorkerMessage pst ⟨"ALL_TASKS_CLEARED", n0, ts0⟩).1 = [] := by
  have hi := reachable_inv h
  rw [workerStep_removeMsg]
  refine ⟨rfl, removeAll_live_nil hi, rfl, ?_, rfl, rfl⟩
  intro q hq
  have hinj : Function.Injective (fun q => WEvent.allTasksCleared q) := by
    intro a b hab
    injection hab
  have he : (removeAllTasks st).2 =
      st.ports.map (fun q => WEvent.allTasksCleared q) := rfl
  rw [he, List.count_map_of_injective _ _ hinj,
    List.count_eq_one_of_mem hi.portsNodup hq]

/-- C6 witness: after adding a task on a connected worker, `REMOVE_ALL`
leaves no armed timer, and a proxy holding a callback drops it on
`ALL_TASKS_CLEARED`. -/
theorem removeAll_spec_witness :
    (workerStep (workerStep (workerStep initState (.connect 0)).1
        (.message 0 ⟨"ADD_TASK", "t", 5, true⟩)).1
      (.message 0 ⟨"REMOVE_ALL", "", 0, true⟩)).1.liveTimers = [] ∧
    getActiveTasks
      (handleWorkerMessage ⟨[("t", JSVal.fn 3)], true⟩
        ⟨"ALL_TASKS_CLEARED", "", 0⟩).1 = [] := by
  have hr : Reachable (workerStep (workerStep initState (.connect 0)).1
      (.message 0 ⟨"ADD_TASK", "t", 5, true⟩)).1 :=
    Reachable.step _ _ (Reachable.step _ _ Reachable.init)
  have h := removeAll_spec _ hr 0 "" 0 true ⟨[("t", JSVal.fn 3)], true⟩ 0
  exact ⟨h.2.1, h.2.2.2.2.2⟩

/-- C7: `CLEAR_TASK(name)` for an absent name is a silent no-op (state
unchanged, nothing broadcast); for a present name its timer handle is
cancelled, the entry is deleted from the registry, and `TASK_CLEARED`
is broadcast to every connected port. -/
theorem clearTask_spec (st : WorkerState) (n : String) :
    (mapGet st.tasks n = none → clearTask st n = (st, [])) ∧
    (∀ tsk, mapGet st.tasks n = some tsk →
       (clearTask st n).1.tasks = mapDelete st.tasks n ∧
       tsk.timerId ∉ ((clearTask st n).1.liveTimers.map Timer.id) ∧
       (clearTask st n).2 =
         st.ports.map (fun p => WEvent.taskCleared p n)) := by
  constructor
  · intro h
    simp [clearTask, h]
  · intro tsk h
    refine ⟨by simp [clearTask, h], ?_, by simp [clearTask, h]⟩
    intro hmem
    have he : (clearTask st n).1.liveTimers =
        eraseTimer st.liveTimers tsk.timerId := by
      simp [clearTask, h]
    rw [he] at hmem
    rcases List.mem_map.mp hmem with ⟨tm, htm, hid⟩
    exact (mem_eraseTimer.mp htm).2 hid

/-- C7 witness: clearing an unknown name on a worker with two ports
broadcasts nothing and changes nothing. -/
theorem clearTask_spec_witness :
    clearTask ⟨[], [0, 1], [], 0⟩ "x" = (⟨[], [0, 1], [], 0⟩, []) :=
  (clearTask_spec ⟨[], [0, 1], [], 0⟩ "x").1 rfl

/-- C8: on an incoming `TIMER_TICK(name, ts)` the proxy invokes the
locally stored callback for `name` with arguments `(name, ts)` when one
exists, and otherwise drops the event with no state change. -/
theorem handleTimerTick_spec (st : ProxyState) (n : String) (ts : Int) :
    (∀ cb, mapGet st.callbacks n = some cb →
       handleWorkerMessage st ⟨"TIMER_TICK", n, ts⟩ = (st, [⟨cb, n, ts⟩])) ∧
    (mapGet st.callbacks n = none →
       handleWorkerMessage st ⟨"TIMER_TICK", n, ts⟩ = (st, [])) := by
  constructor
  · intro cb h
    simp [handleWorkerMessage, h]
  · intro h
    simp [handleWorkerMessage, h]

/-- C8 witness: a stored callback is invoked with the tick's name and
timestamp. -/
theorem handleTimerTick_spec_witness :
    handleWorkerMessage ⟨[("a", JSVal.fn 7)], true⟩ ⟨"TIMER_TICK", "a", 5⟩ =
      (⟨[("a", JSVal.fn 7)], true⟩, [⟨JSVal.fn 7, "a", 5⟩]) :=
  (handleTimerTick_spec ⟨[("a", JSVal.fn 7)], true⟩ "a" 5).1 (JSVal.fn 7) rfl

/-- C9 counterexample: the worker never drops a channel — after two
ports connect (and whatever happens to the second port's consumer), a
`CLEAR_TASK` broadcast is still sent to both ports, and the channel set
still holds both. -/
theorem broadcast_reaches_all_ports :
    (workerStep (workerStep (workerStep (workerStep initState
        (.connect 0)).1 (.connect 1)).1
        (.message 0 ⟨"ADD_TASK", "t", 5, true⟩)).1
      (.message 0 ⟨"CLEAR_TASK", "t", 0, true⟩)).2 =
      [WEvent.taskCleared 0 "t", WEvent.taskCleared 1 "t"] ∧
    (workerStep (workerStep (workerStep initState (.connect 0)).1
        (.connect 1)).1
      (.message 0 ⟨"ADD_TASK", "t", 5, true⟩)).1.ports = [0, 1] := by
  decide

/-- C9 (amended): the worker has no channel-failure handling: no
event-loop step ever removes a port from the channel set (message and
fire steps leave it exactly unchanged, connect only adds), so every
broadcast is computed over every port that has ever connected. -/
theorem ports_never_dropped (st : WorkerState) (op : WorkerOp) :
    (∀ p ∈ st.ports, p ∈ (workerStep st op).1.ports) ∧
    (∀ q d, op = WorkerOp.message q d →
       (workerStep st op).1.ports = st.ports) ∧
    (∀ tid ts, op = WorkerOp.fire tid ts →
       (workerStep st op).1.ports = st.ports) := by
  cases op with
  | connect p =>
      refine ⟨?_, ?_, ?_⟩
      · intro q hq
        have he : (workerStep st (.connect p)).1.ports = setAdd st.ports p :=
          rfl
        rw [he]
        unfold setAdd
        by_cases hp : p ∈ st.ports
        · simpa [hp] using hq
        · simp only [hp, if_false]
          exact List.mem_append_left _ hq
      · intro q d hqd
        exact WorkerOp.noConfusion hqd
      · intro tid ts hqd
        exact WorkerOp.noConfusion hqd
  | message q d =>
      have he : (workerStep st (.message q d)).1.ports = st.ports := by
        by_cases h1 : d.action = "ADD_TASK"
        · simp [workerStep, h1, addTask_ports]
        · by_cases h2 : d.action = "CLEAR_TASK"
          · simp [workerStep, h1, h2, clearTask_ports]
          · by_cases h3 : d.action = "REMOVE_ALL"
            · simp [workerStep, h1, h2, h3, removeAllTasks]
            · by_cases h4 : d.action = "PING"
              · simp [workerStep, h1, h2, h3, h4]
              · simp [workerStep, h1, h2, h3, h4]
      refine ⟨?_, ?_, ?_⟩
      · intro p hp
        rw [he]
        exact hp
      · intro q' d' _
        exact he
      · intro tid ts hqd
        exact WorkerOp.noConfusion hqd
  | fire tid ts =>
      have he : (workerStep st (.fire tid ts)).1.ports = st.ports := by
        cases hf : st.liveTimers.find? (fun tm => tm.id = tid) with
        | none => simp [workerStep, hf]
        | some tm =>
            by_cases hr : tm.canRepeat = false
            · simp [workerStep, hf, fireTimer, hr, clearTask_ports]
            · simp [workerStep, hf, fireTimer, hr]
      refine ⟨?_, ?_, ?_⟩
      · intro p hp
        rw [he]
        exact hp
      · intro q' d' hqd
        exact WorkerOp.noConfusion hqd
      · intro tid' ts' _
        exact he

/-- C9 witness: a `CLEAR_TASK` message step leaves the channel set
exactly as it was. -/
theorem ports_never_dropped_witness :
    (workerStep ⟨[], [0, 1], [], 0⟩
      (.message 0 ⟨"CLEAR_TASK", "t", 0, true⟩)).1.ports = [0, 1] :=
  (ports_never_dropped ⟨[], [0, 1], [], 0⟩
    (.message 0 ⟨"CLEAR_TASK", "t", 0, true⟩)).2.1 0 ⟨"CLEAR_TASK", "t", 0, true⟩ rfl

/-- C10: `hasTask(name)` is true exactly when `name` occurs in
`getActiveTasks()` — both read the same local callback map. -/
theorem hasTask_iff_getActiveTasks (st : ProxyState) (n : String) :
    hasTask st n = true ↔ n ∈ getActiveTasks st := by
  unfold hasTask getActiveTasks
  exact mapGet_isSome_iff_mem_keys

end STM
